import Mathlib

/-!
Shallow embedding of `src/utxo_merger.rs`: a periodic UTXO consolidation
engine.  The per-coin loop body of `main` is modelled as a pure function
over an environment that records the results of the external RPC calls
(block count, per-key unspent listing, signing, broadcast).  Machine
integers (`u64`) are modelled as `Nat` with explicit wrapping modulo
`2 ^ 64` where the Rust release build would wrap, and with `Option`
(`none` = panic) where the debug build would abort on overflow/underflow.
-/

/-- `2 ^ 64`, the modulus of Rust `u64` arithmetic. -/
def u64size : Nat := 18446744073709551616

/-- Rust release-mode `u64` subtraction `a - b` (two's-complement wraparound).
For operands `a b < u64size` this is exact wrapping semantics. -/
def wsub64 (a b : Nat) : Nat := (a + u64size - b) % u64size

/-- Rust release-mode `u64` addition `a + b` (wraparound). -/
def wadd64 (a b : Nat) : Nat := (a + b) % u64size

/-- Rust debug-mode `u64` subtraction: `none` models the overflow panic. -/
def csub64 (a b : Nat) : Option Nat := if b ≤ a then some (a - b) else none

/-- Rust debug-mode `u64` addition: `none` models the overflow panic. -/
def cadd64 (a b : Nat) : Option Nat := if a + b < u64size then some (a + b) else none

/-- `ElectrumUnspent` (from `coins::utxo::rpc_clients`): one unspent output
as returned by an Electrum server.  The 32-byte `tx_hash` is modelled as a
byte list; `value` and `height` are `u64` values modelled as `Nat`. -/
structure ElectrumUnspent where
  tx_hash : List Nat
  tx_pos : Nat
  value : Nat
  height : Option Nat
  deriving DecidableEq, Repr

/-- A keypair from the registry (`key_pair_from_seed`).  Key derivation is
an external collaborator; only the identity of the pair matters to the
core, so it is modelled by an opaque numeric identifier. -/
structure KeyPair where
  id : Nat
  deriving DecidableEq, Repr

/-- `chain::OutPoint`: reference to a previous transaction output. -/
structure OutPoint where
  hash : List Nat
  index : Nat
  deriving DecidableEq, Repr

/-- `chain::constants::SEQUENCE_FINAL` (`0xffffffff`). -/
def SEQUENCE_FINAL : Nat := 4294967295

/-- `script::UnsignedTransactionInput`. -/
structure UnsignedTransactionInput where
  previous_output : OutPoint
  sequence : Nat
  amount : Nat
  deriving DecidableEq, Repr

/-- `chain::TransactionOutput`: value plus destination script bytes. -/
structure TransactionOutput where
  value : Nat
  script_pubkey : List Nat
  deriving DecidableEq, Repr

/-- The part of the transaction preimage the merger manipulates: its
ordered input and output lists (`unsigned.inputs`, `unsigned.outputs`). -/
structure UnsignedTx where
  inputs : List UnsignedTransactionInput
  outputs : List TransactionOutput
  deriving DecidableEq, Repr

/-- `unsigned_input_from_electrum` (utxo_merger.rs lines 18-27): previous
output is the byte-reversed tx hash plus position, sequence is final, and
the amount carries the unspent value for fee computation. -/
def unsigned_input_from_electrum (el : ElectrumUnspent) : UnsignedTransactionInput :=
  { previous_output := { hash := el.tx_hash.reverse, index := el.tx_pos }
    sequence := SEQUENCE_FINAL
    amount := el.value }

/-- The `retain` closure (utxo_merger.rs lines 127-134) in release-mode
semantics: keep an unspent iff `value >= output_threshold` and its height
is present with `current_block - tx_height > 100`, where the subtraction
is wrapping `u64` subtraction. -/
def retainUnspent (output_threshold current_block : Nat) (unspent : ElectrumUnspent) : Bool :=
  let value_match := decide (output_threshold ≤ unspent.value)
  let is_mature := match unspent.height with
    | some tx_height => decide (100 < wsub64 current_block tx_height)
    | none => false
  value_match && is_mature

/-- The `retain` closure in debug-mode semantics: `none` models the panic
of the underflowing subtraction `current_block - tx_height`. -/
def retainUnspentChecked (output_threshold current_block : Nat) (unspent : ElectrumUnspent) :
    Option Bool :=
  let value_match := decide (output_threshold ≤ unspent.value)
  match unspent.height with
  | some tx_height =>
      match csub64 current_block tx_height with
      | some d => some (value_match && decide (100 < d))
      | none => none
  | none => some (value_match && false)

/-- `Vec::retain` on the collected tagged outputs: order-preserving filter
by the retain closure applied to the unspent component. -/
def filterUnspents (output_threshold current_block : Nat)
    (l : List (ElectrumUnspent × KeyPair)) : List (ElectrumUnspent × KeyPair) :=
  l.filter (fun p => retainUnspent output_threshold current_block p.1)

theorem wsub64_eq_sub (a b : Nat) (hba : b ≤ a) (ha : a < u64size) :
    wsub64 a b = a - b := by
  unfold wsub64
  have h1 : a + u64size - b = (a - b) + u64size := by omega
  rw [h1, Nat.add_mod_right, Nat.mod_eq_of_lt (by omega)]

theorem wsub64_underflow (a b : Nat) (hab : a < b) (hb : b < u64size) :
    wsub64 a b = a + u64size - b := by
  unfold wsub64
  exact Nat.mod_eq_of_lt (by omega)

/-- The per-key collection loop (utxo_merger.rs lines 111-125): for each
keypair, query the Electrum server for the unspents of its p2pk script
(the script/hash construction is folded into the abstract `listUnspent`
capability); on error, log and `continue`; on success, extend the
accumulator with each unspent tagged by the owning keypair. -/
def collectUnspents (keypairs : List KeyPair)
    (listUnspent : KeyPair → Except String (List ElectrumUnspent)) :
    List (ElectrumUnspent × KeyPair) :=
  keypairs.foldl
    (fun acc keypair =>
      match listUnspent keypair with
      | Except.ok unspents => acc ++ unspents.map (fun u => (u, keypair))
      | Except.error _ => acc)
    []

/-- One step of the `output_amount` fold (utxo_merger.rs line 149) in
release-mode `u64` semantics: `cur + input.amount - 1000`. -/
def wrapFeeStep (cur : Nat) (input : UnsignedTransactionInput) : Nat :=
  wsub64 (wadd64 cur input.amount) 1000

/-- One step of the `output_amount` fold in debug-mode semantics: `none`
models the panic of an overflowing addition or underflowing subtraction. -/
def checkedFeeStep (cur : Option Nat) (input : UnsignedTransactionInput) : Option Nat :=
  cur.bind fun c => (cadd64 c input.amount).bind fun s => csub64 s 1000

/-- The `output_amount` fold (utxo_merger.rs line 149) in release-mode
`u64` semantics: `inputs.iter().fold(0, |cur, input| cur + input.amount - 1000)`. -/
def outputAmountWrap (inputs : List UnsignedTransactionInput) : Nat :=
  inputs.foldl wrapFeeStep 0

/-- The `output_amount` fold in debug-mode semantics. -/
def outputAmountChecked (inputs : List UnsignedTransactionInput) : Option Nat :=
  inputs.foldl checkedFeeStep (some 0)

/-- Transaction assembly (utxo_merger.rs lines 141-155): one input per
filtered tagged output, in order, and exactly one output paying the whole
amount net of the per-input fee to the configured destination script. -/
def assembleTx (script_pubkey : List Nat)
    (unspents_with_priv : List (ElectrumUnspent × KeyPair)) : UnsignedTx :=
  let inputs := unspents_with_priv.map (fun p => unsigned_input_from_electrum p.1)
  { inputs := inputs
    outputs := [{ value := outputAmountWrap inputs, script_pubkey := script_pubkey }] }

/-- Rust `collect::<Result<Vec<_>, _>>`: succeed with the list of values,
or fail with the first error. -/
def collectExcept {ε α : Type} : List (Except ε α) → Except ε (List α)
  | [] => Except.ok []
  | x :: xs =>
    match x with
    | Except.error e => Except.error e
    | Except.ok a =>
      match collectExcept xs with
      | Except.error e => Except.error e
      | Except.ok rest => Except.ok (a :: rest)

/-- The per-index signing calls (utxo_merger.rs lines 157-170): input `i`
is signed with the keypair tagged onto the filtered output at index `i`.
`unsigned.inputs` is built index-for-index from `unspents_with_priv`, so
enumerating the filtered list realizes the source's
`unspents_with_priv[i]` lookup at each enumerated input index. -/
def signCalls {S : Type} (sign : UnsignedTx → Nat → KeyPair → Except String S)
    (script_pubkey : List Nat)
    (unspents_with_priv : List (ElectrumUnspent × KeyPair)) : List (Except String S) :=
  unspents_with_priv.enum.map
    (fun p => sign (assembleTx script_pubkey unspents_with_priv) p.1 p.2.2)

/-- `coins::utxo::rpc_clients::UtxoRpcClientEnum` (Electrum or native). -/
inductive UtxoRpcClientEnum where
  | electrum
  | native
  deriving DecidableEq, Repr

/-- Environment of one coin's cycle: its static configuration together
with the outcomes the external world would give to each RPC/signing call
made during the cycle.  `S` is the type of a signed input produced by the
external `p2pk_spend`. -/
structure CoinCycleEnv (S : Type) where
  client : UtxoRpcClientEnum
  ticker : String
  output_threshold : Nat
  keypairs : List KeyPair
  script_pubkey : List Nat
  blockCount : Except String Nat
  listUnspent : KeyPair → Except String (List ElectrumUnspent)
  sign : UnsignedTx → Nat → KeyPair → Except String S
  broadcast : List S → Except String String

/-- Observable outcome of one coin's cycle, mirroring the `continue` /
`panic!` / success exits of the loop body; failure constructors carry
exactly the data the corresponding `println!` logs. -/
inductive CycleOutcome (S : Type) where
  | panicked
  | heightError (e : String)
  | skippedFewUnspents (n : Nat)
  | signFailed (e : String) (tx : UnsignedTx) (ticker : String)
  | broadcastFailed (e : String) (ticker : String)
  | sent (ticker : String) (txid : String)

/-- The filtered tagged-output list of a cycle at a given block height. -/
def filteredUnspents {S : Type} (env : CoinCycleEnv S) (current_block : Nat) :
    List (ElectrumUnspent × KeyPair) :=
  filterUnspents env.output_threshold current_block
    (collectUnspents env.keypairs env.listUnspent)

/-- One iteration of the inner `for (coin, output_threshold)` loop
(utxo_merger.rs lines 99-197): non-Electrum client panics; height-query
failure skips the coin; collect, filter, skip when fewer than 4 outputs
remain; assemble, sign every input (first failure aborts the coin's
cycle before any broadcast), then broadcast. -/
def processCoin {S : Type} (env : CoinCycleEnv S) : CycleOutcome S :=
  match env.client with
  | UtxoRpcClientEnum.native => CycleOutcome.panicked
  | UtxoRpcClientEnum.electrum =>
    match env.blockCount with
    | Except.error e => CycleOutcome.heightError e
    | Except.ok current_block =>
      let unspents_with_priv := filteredUnspents env current_block
      if unspents_with_priv.length < 4 then
        CycleOutcome.skippedFewUnspents unspents_with_priv.length
      else
        let unsigned := assembleTx env.script_pubkey unspents_with_priv
        match collectExcept (signCalls env.sign env.script_pubkey unspents_with_priv) with
        | Except.error e => CycleOutcome.signFailed e unsigned env.ticker
        | Except.ok signed_inputs =>
          match env.broadcast signed_inputs with
          | Except.error e => CycleOutcome.broadcastFailed e env.ticker
          | Except.ok hash => CycleOutcome.sent env.ticker hash

/-- Whether an outcome reached the `send_raw_tx` call. -/
def broadcastAttempted {S : Type} : CycleOutcome S → Bool
  | CycleOutcome.broadcastFailed _ _ => true
  | CycleOutcome.sent _ _ => true
  | _ => false

/-- One pass of the scheduler over the configured coins (the `for` loop
inside `loop`, utxo_merger.rs lines 98-198): coins are processed one at a
time, in order; a Rust `panic!` unwinds the whole process, so a panicked
coin ends the pass with no later coin processed. -/
def runPass {S : Type} : List (CoinCycleEnv S) → List (CycleOutcome S)
  | [] => []
  | env :: rest =>
    match processCoin env with
    | CycleOutcome.panicked => [CycleOutcome.panicked]
    | o => o :: runPass rest

theorem u64size_lt_1000 : 1000 < u64size := by decide

/-- C1: the maturity/value filter retains a collected tagged output iff
its value is at least the configured threshold, its confirmation height
is present, and the current height exceeds the confirmation height by
strictly more than 100; outputs with absent confirmation height are
always excluded.  (The height precondition is the well-definedness domain
of the `u64` subtraction, see the underflow theorem.) -/
theorem retain_characterization (output_threshold current_block : Nat) (u : ElectrumUnspent)
    (hcb : current_block < u64size)
    (hh : ∀ h ∈ u.height, h ≤ current_block) :
    retainUnspent output_threshold current_block u = true ↔
      (output_threshold ≤ u.value ∧ ∃ h, u.height = some h ∧ 100 < current_block - h) := by
  unfold retainUnspent
  cases hu : u.height with
  | none => simp [hu]
  | some tx_height =>
    have hle : tx_height ≤ current_block := hh tx_height (by simp [hu])
    simp [wsub64_eq_sub current_block tx_height hle hcb]

def c1unspent : ElectrumUnspent :=
  { tx_hash := [1, 2], tx_pos := 0, value := 100000, height := some 200 }

theorem retain_characterization_witness :
    1000 < u64size ∧
    (retainUnspent 50000 1000 c1unspent = true ↔
      (50000 ≤ c1unspent.value ∧ ∃ h, c1unspent.height = some h ∧ 100 < 1000 - h)) :=
  ⟨u64size_lt_1000,
    retain_characterization 50000 1000 c1unspent (by decide)
      (by intro h hmem; simp [c1unspent] at hmem; omega)⟩

/-- C7: the maturity/value filter is idempotent: filtering an
already-filtered tagged-output list with the same height and threshold
returns it unchanged, so running the filter twice equals running it once. -/
theorem filter_idempotent (output_threshold current_block : Nat)
    (l : List (ElectrumUnspent × KeyPair)) :
    filterUnspents output_threshold current_block
        (filterUnspents output_threshold current_block l) =
      filterUnspents output_threshold current_block l := by
  unfold filterUnspents
  induction l with
  | nil => rfl
  | cons x xs ih =>
    cases hx : retainUnspent output_threshold current_block x.1 <;>
      simp [List.filter_cons, hx, ih]

theorem collectUnspents_eq_join (keypairs : List KeyPair)
    (listUnspent : KeyPair → Except String (List ElectrumUnspent)) :
    collectUnspents keypairs listUnspent =
      (keypairs.map (fun keypair =>
        match listUnspent keypair with
        | Except.ok unspents => unspents.map (fun u => (u, keypair))
        | Except.error _ => [])).flatten := by
  suffices h : ∀ (kps : List KeyPair) (acc : List (ElectrumUnspent × KeyPair)),
      kps.foldl
        (fun acc keypair =>
          match listUnspent keypair with
          | Except.ok unspents => acc ++ unspents.map (fun u => (u, keypair))
          | Except.error _ => acc)
        acc =
      acc ++ (kps.map (fun keypair =>
        match listUnspent keypair with
        | Except.ok unspents => unspents.map (fun u => (u, keypair))
        | Except.error _ => [])).flatten by
    simpa [collectUnspents] using h keypairs []
  intro kps
  induction kps with
  | nil => intro acc; simp
  | cons k rest ih =>
    intro acc
    rw [List.foldl_cons, List.map_cons, List.flatten, ih]
    cases hk : listUnspent k <;> simp [List.append_assoc]

/-- C6: per-key fault isolation in the collection loop: the collected
tagged-output list is exactly the concatenation, in key order, of the
outputs of the keys whose queries succeeded (a failed key contributes
nothing and aborts nothing); in particular every output returned for a
succeeding key appears in the collected set, tagged with that key,
regardless of how the other keys' queries fail. -/
theorem collect_fault_isolation (keypairs : List KeyPair)
    (listUnspent : KeyPair → Except String (List ElectrumUnspent)) :
    (collectUnspents keypairs listUnspent =
      (keypairs.map (fun keypair =>
        match listUnspent keypair with
        | Except.ok unspents => unspents.map (fun u => (u, keypair))
        | Except.error _ => [])).flatten) ∧
    (∀ keypair unspents u, keypair ∈ keypairs → listUnspent keypair = Except.ok unspents →
      u ∈ unspents → (u, keypair) ∈ collectUnspents keypairs listUnspent) := by
  refine ⟨collectUnspents_eq_join keypairs listUnspent, ?_⟩
  intro keypair unspents u hk hq hu
  rw [collectUnspents_eq_join keypairs listUnspent]
  rw [List.mem_flatten]
  refine ⟨unspents.map (fun u => (u, keypair)), ?_, ?_⟩
  · rw [List.mem_map]
    exact ⟨keypair, hk, by rw [hq]⟩
  · exact List.mem_map_of_mem _ hu

def c6unspent (n : Nat) : ElectrumUnspent :=
  { tx_hash := [n], tx_pos := 0, value := 100000, height := some 1 }

def c6keypairs : List KeyPair := [{ id := 1 }, { id := 2 }, { id := 3 }]

def c6query (keypair : KeyPair) : Except String (List ElectrumUnspent) :=
  if keypair.id = 2 then Except.error "transport error" else Except.ok [c6unspent keypair.id]

theorem collect_fault_isolation_witness :
    c6query { id := 2 } = Except.error "transport error" ∧
    c6query { id := 3 } = Except.ok [c6unspent 3] ∧
    ((c6unspent 3, { id := 3 }) : ElectrumUnspent × KeyPair) ∈
      collectUnspents c6keypairs c6query :=
  ⟨rfl, rfl,
    (collect_fault_isolation c6keypairs c6query).2 { id := 3 } [c6unspent 3] (c6unspent 3)
      (by decide) rfl (by decide)⟩

theorem outputAmount_go (inputs : List UnsignedTransactionInput) :
    ∀ cur : Nat,
      (∀ i ∈ inputs, 1000 ≤ i.amount) →
      cur + (inputs.map (fun i => i.amount)).sum < u64size →
      ((inputs.foldl wrapFeeStep cur : Nat) : Int) =
        (cur : Int) + (inputs.map (fun i => (i.amount : Int))).sum - 1000 * inputs.length := by
  induction inputs with
  | nil => intro cur _ _; simp
  | cons a rest ih =>
    intro cur hfee hsum
    have ha : 1000 ≤ a.amount := hfee a (by simp)
    have hsum1 : cur + a.amount + ((rest.map (fun i => i.amount)).sum) < u64size := by
      simp only [List.map_cons, List.sum_cons] at hsum
      omega
    have hadd : wadd64 cur a.amount = cur + a.amount := by
      unfold wadd64
      exact Nat.mod_eq_of_lt (by omega)
    have hsub : wsub64 (cur + a.amount) 1000 = cur + a.amount - 1000 :=
      wsub64_eq_sub _ _ (by omega) (by omega)
    have hstep : wrapFeeStep cur a = cur + a.amount - 1000 := by
      unfold wrapFeeStep
      rw [hadd, hsub]
    rw [List.foldl_cons, hstep,
      ih (cur + a.amount - 1000) (fun i hi => hfee i (by simp [hi])) (by omega)]
    simp only [List.map_cons, List.sum_cons, List.length_cons]
    have hcast : ((cur + a.amount - 1000 : Nat) : Int) = (cur : Int) + (a.amount : Int) - 1000 := by
      omega
    rw [hcast]
    push_cast
    ring

theorem outputAmountWrap_exact (inputs : List UnsignedTransactionInput)
    (hfee : ∀ i ∈ inputs, 1000 ≤ i.amount)
    (hsum : (inputs.map (fun i => i.amount)).sum < u64size) :
    ((outputAmountWrap inputs : Nat) : Int) =
      (inputs.map (fun i => (i.amount : Int))).sum - 1000 * inputs.length := by
  unfold outputAmountWrap
  rw [outputAmount_go inputs 0 hfee (by omega)]
  simp

/-- C2 (amended): an assembled transaction has one input per filtered
tagged output and exactly one output, and, provided every input value is
at least the 1000-unit per-input fee and the total input value is below
`2 ^ 64` (otherwise the `u64` fold wraps), the output value equals the
sum of all input values minus 1000 times the input count, in exact
integer arithmetic. -/
theorem assemble_exact (script_pubkey : List Nat)
    (unspents_with_priv : List (ElectrumUnspent × KeyPair))
    (_hlen : 4 ≤ unspents_with_priv.length)
    (hfee : ∀ p ∈ unspents_with_priv, 1000 ≤ p.1.value)
    (hsum : (unspents_with_priv.map (fun p => p.1.value)).sum < u64size) :
    (assembleTx script_pubkey unspents_with_priv).inputs.length = unspents_with_priv.length ∧
    (assembleTx script_pubkey unspents_with_priv).outputs.length = 1 ∧
    ∀ out ∈ (assembleTx script_pubkey unspents_with_priv).outputs,
      (out.value : Int) =
        ((assembleTx script_pubkey unspents_with_priv).inputs.map
          (fun i => (i.amount : Int))).sum -
          1000 * (assembleTx script_pubkey unspents_with_priv).inputs.length := by
  have hamount : ∀ p : ElectrumUnspent × KeyPair,
      (unsigned_input_from_electrum p.1).amount = p.1.value := fun _ => rfl
  have hmapfee : ∀ i ∈ unspents_with_priv.map (fun p => unsigned_input_from_electrum p.1),
      1000 ≤ i.amount := by
    intro i hi
    rw [List.mem_map] at hi
    obtain ⟨p, hp, rfl⟩ := hi
    rw [hamount]
    exact hfee p hp
  have hmapsum :
      ((unspents_with_priv.map (fun p => unsigned_input_from_electrum p.1)).map
        (fun i => i.amount)).sum < u64size := by
    rw [List.map_map]
    exact hsum
  refine ⟨by simp [assembleTx], by simp [assembleTx], ?_⟩
  intro out hout
  simp only [assembleTx, List.mem_singleton] at hout
  subst hout
  simp only [assembleTx]
  exact outputAmountWrap_exact _ hmapfee hmapsum

def c2unspent : ElectrumUnspent :=
  { tx_hash := [7], tx_pos := 0, value := 100000, height := some 1 }

def c2five : List (ElectrumUnspent × KeyPair) :=
  [(c2unspent, { id := 1 }), (c2unspent, { id := 2 }), (c2unspent, { id := 3 }),
   (c2unspent, { id := 4 }), (c2unspent, { id := 5 })]

theorem assemble_exact_witness :
    4 ≤ c2five.length ∧
    (assembleTx [] c2five).inputs.length = c2five.length ∧
    (assembleTx [] c2five).outputs.length = 1 ∧
    (assembleTx [] c2five).outputs.map (fun out => out.value) = [495000] :=
  ⟨by decide,
    (assemble_exact [] c2five (by decide) (by decide) (by decide)).1,
    (assemble_exact [] c2five (by decide) (by decide) (by decide)).2.1,
    by decide⟩

def c2low : ElectrumUnspent :=
  { tx_hash := [9], tx_pos := 0, value := 500, height := some 1 }

def c2lowFour : List (ElectrumUnspent × KeyPair) :=
  [(c2low, { id := 1 }), (c2low, { id := 2 }), (c2low, { id := 3 }), (c2low, { id := 4 })]

/-- C2 counterexample: four eligible outputs (value 500, above a
configured threshold of 0, mature at height 500) assemble to a single
output whose value is the wrapped `2 ^ 64 - 2000`, not the exact integer
`4 * 500 - 1000 * 4 = -2000`. -/
theorem assemble_not_exact_counterexample :
    filterUnspents 0 500 c2lowFour = c2lowFour ∧
    4 ≤ c2lowFour.length ∧
    (assembleTx [] c2lowFour).outputs.map (fun out => out.value) = [18446744073709549616] ∧
    ¬ ((18446744073709549616 : Int) =
        ((assembleTx [] c2lowFour).inputs.map (fun i => (i.amount : Int))).sum -
          1000 * (assembleTx [] c2lowFour).inputs.length) := by
  refine ⟨by decide, by decide, by decide, ?_⟩
  intro h
  simp [assembleTx, c2lowFour, c2low, unsigned_input_from_electrum] at h

/-- C8: the maturity check is not total: for an unspent whose confirmation
height is present and strictly above the current block height, the `u64`
subtraction `current_block - tx_height` underflows — the debug build
panics (`none`) and the release build wraps around and retains the output
(whenever its value passes the threshold) instead of excluding it.  The
filter agrees with its checked version exactly under the precondition that
every present confirmation height is at most the current height. -/
theorem maturity_check_underflow (output_threshold current_block tx_height : Nat)
    (u : ElectrumUnspent)
    (hh : u.height = some tx_height)
    (hgt : current_block < tx_height)
    (htb : tx_height < u64size)
    (hbound : tx_height < current_block + (u64size - 100))
    (hv : output_threshold ≤ u.value) :
    retainUnspentChecked output_threshold current_block u = none ∧
    retainUnspent output_threshold current_block u = true ∧
    (∀ t c v, c < u64size → (∀ h ∈ v.height, h ≤ c) →
      retainUnspentChecked t c v = some (retainUnspent t c v)) := by
  refine ⟨?_, ?_, ?_⟩
  · have hcs : csub64 current_block tx_height = none := by
      unfold csub64
      rw [if_neg (by omega)]
    simp [retainUnspentChecked, hh, hcs]
  · have hw : wsub64 current_block tx_height = current_block + u64size - tx_height :=
      wsub64_underflow current_block tx_height hgt htb
    simp [retainUnspent, hh, hw, hv]
    omega
  · intro t c v hc hle
    cases hv2 : v.height with
    | none => simp [retainUnspentChecked, retainUnspent, hv2]
    | some h2 =>
      have h2le : h2 ≤ c := hle h2 (by simp [hv2])
      have hcs : csub64 c h2 = some (c - h2) := by
        unfold csub64
        rw [if_pos h2le]
      simp [retainUnspentChecked, retainUnspent, hv2, hcs,
        wsub64_eq_sub c h2 h2le hc]

def c8unspent : ElectrumUnspent :=
  { tx_hash := [3], tx_pos := 0, value := 100000, height := some 200 }

theorem maturity_check_underflow_witness :
    retainUnspentChecked 0 100 c8unspent = none ∧
    retainUnspent 0 100 c8unspent = true :=
  ⟨(maturity_check_underflow 0 100 200 c8unspent rfl (by decide) (by decide) (by decide)
      (by decide)).1,
    (maturity_check_underflow 0 100 200 c8unspent rfl (by decide) (by decide) (by decide)
      (by decide)).2.1⟩

theorem foldl_checkedFeeStep_none (l : List UnsignedTransactionInput) :
    l.foldl checkedFeeStep none = none := by
  induction l with
  | nil => rfl
  | cons a rest ih => rw [List.foldl_cons]; exact ih

theorem checked_wrap_agree (l : List UnsignedTransactionInput) :
    ∀ cur res : Nat, cur < u64size → l.foldl checkedFeeStep (some cur) = some res →
      l.foldl wrapFeeStep cur = res ∧ res < u64size := by
  induction l with
  | nil =>
    intro cur res hcur h
    simp at h
    subst h
    exact ⟨rfl, hcur⟩
  | cons a rest ih =>
    intro cur res hcur h
    rw [List.foldl_cons] at h
    by_cases hov : cur + a.amount < u64size
    · by_cases hun : 1000 ≤ cur + a.amount
      · have hstepc : checkedFeeStep (some cur) a = some (cur + a.amount - 1000) := by
          unfold checkedFeeStep cadd64 csub64
          simp [hov, hun]
        rw [hstepc] at h
        have hstepw : wrapFeeStep cur a = cur + a.amount - 1000 := by
          unfold wrapFeeStep wadd64
          rw [Nat.mod_eq_of_lt hov]
          exact wsub64_eq_sub _ _ hun hov
        rw [List.foldl_cons, hstepw]
        exact ih _ res (by omega) h
      · exfalso
        have hstepc : checkedFeeStep (some cur) a = none := by
          unfold checkedFeeStep cadd64 csub64
          simp [hov, hun]
        rw [hstepc, foldl_checkedFeeStep_none] at h
        exact Option.noConfusion h
    · exfalso
      have hstepc : checkedFeeStep (some cur) a = none := by
        unfold checkedFeeStep cadd64
        simp [hov]
      rw [hstepc, foldl_checkedFeeStep_none] at h
      exact Option.noConfusion h

/-- C9: the output-amount fold is unguarded against the per-input fee
exceeding the running value: as soon as the running total plus the next
input's value is below 1000, the next step's `u64` subtraction
underflows — the debug build panics (`none`) for the whole list, and the
release build wraps the running value to at least `2 ^ 64 - 1000`
(a nonsense output value) and continues, with no rejection branch. -/
theorem output_amount_underflow (l1 l2 : List UnsignedTransactionInput)
    (a : UnsignedTransactionInput) (c : Nat)
    (hc : outputAmountChecked l1 = some c)
    (hlow : c + a.amount < 1000) :
    outputAmountChecked (l1 ++ a :: l2) = none ∧
    outputAmountWrap (l1 ++ [a]) = c + a.amount + (u64size - 1000) ∧
    u64size - 1000 ≤ outputAmountWrap (l1 ++ [a]) := by
  have hcu : c < u64size := by
    have h0 : (0 : Nat) < u64size := by decide
    exact (checked_wrap_agree l1 0 c h0 hc).2
  have hwrap1 : l1.foldl wrapFeeStep 0 = c :=
    (checked_wrap_agree l1 0 c (by decide) hc).1
  have hca1 : c + a.amount < u64size := by
    have := u64size_lt_1000
    omega
  have hca2 : ¬ 1000 ≤ c + a.amount := by omega
  have hstepc : checkedFeeStep (some c) a = none := by
    unfold checkedFeeStep cadd64 csub64
    simp [hca1, hca2]
  have hstepw : wrapFeeStep c a = c + a.amount + (u64size - 1000) := by
    unfold wrapFeeStep wadd64
    have hlt : c + a.amount < u64size := by
      have := u64size_lt_1000
      omega
    rw [Nat.mod_eq_of_lt hlt, wsub64_underflow _ _ (by omega) (by have := u64size_lt_1000; omega)]
    have := u64size_lt_1000
    omega
  refine ⟨?_, ?_, ?_⟩
  · unfold outputAmountChecked at *
    rw [List.foldl_append, hc, List.foldl_cons, hstepc, foldl_checkedFeeStep_none]
  · unfold outputAmountWrap
    rw [List.foldl_append, hwrap1, List.foldl_cons, List.foldl_nil, hstepw]
  · unfold outputAmountWrap
    rw [List.foldl_append, hwrap1, List.foldl_cons, List.foldl_nil, hstepw]
    omega

def c9low : UnsignedTransactionInput :=
  { previous_output := { hash := [9], index := 0 }, sequence := SEQUENCE_FINAL, amount := 500 }

theorem output_amount_underflow_witness :
    outputAmountChecked [] = some 0 ∧
    outputAmountChecked [c9low] = none ∧
    outputAmountWrap [c9low] = 18446744073709551116 :=
  ⟨rfl,
    (output_amount_underflow [] [] c9low 0 rfl (by decide)).1,
    (output_amount_underflow [] [] c9low 0 rfl (by decide)).2.1⟩

theorem collectExcept_ok_spec {ε α : Type} (l : List (Except ε α)) :
    ∀ vals : List α, collectExcept l = Except.ok vals →
      vals.length = l.length ∧ ∀ i : Nat, l[i]? = vals[i]?.map Except.ok := by
  induction l with
  | nil =>
    intro vals h
    simp [collectExcept] at h
    subst h
    exact ⟨rfl, fun i => by simp⟩
  | cons x xs ih =>
    intro vals h
    unfold collectExcept at h
    cases x with
    | error e => simp at h
    | ok a =>
      cases hxs : collectExcept xs with
      | error e => rw [hxs] at h; simp at h
      | ok rest =>
        rw [hxs] at h
        simp at h
        subst h
        obtain ⟨hlen, hget⟩ := ih rest hxs
        refine ⟨by simp [hlen], ?_⟩
        intro i
        cases i with
        | zero => simp
        | succ j => simpa using hget j

/-- C3: index alignment through the cycle: the unsigned-input list is the
index-for-index image of the filtered tagged-output list, the signing call
for input `i` passes exactly the keypair tagged onto the filtered output
at index `i`, and on success the signed-input list aligns 1:1 by position
with those calls. -/
theorem sign_index_alignment {S : Type}
    (sign : UnsignedTx → Nat → KeyPair → Except String S)
    (script_pubkey : List Nat)
    (unspents_with_priv : List (ElectrumUnspent × KeyPair))
    (sigs : List S)
    (hok : collectExcept (signCalls sign script_pubkey unspents_with_priv) = Except.ok sigs) :
    (assembleTx script_pubkey unspents_with_priv).inputs.length =
      unspents_with_priv.length ∧
    sigs.length = unspents_with_priv.length ∧
    ∀ i tagged, unspents_with_priv[i]? = some tagged →
      (assembleTx script_pubkey unspents_with_priv).inputs[i]? =
        some (unsigned_input_from_electrum tagged.1) ∧
      sigs[i]?.map Except.ok =
        some (sign (assembleTx script_pubkey unspents_with_priv) i tagged.2) := by
  obtain ⟨hlen, hget⟩ := collectExcept_ok_spec _ sigs hok
  have hslen : (signCalls sign script_pubkey unspents_with_priv).length =
      unspents_with_priv.length := by
    simp [signCalls]
  refine ⟨by simp [assembleTx], by rw [hlen, hslen], ?_⟩
  intro i tagged htag
  constructor
  · simp [assembleTx, htag]
  · rw [← hget i]
    simp [signCalls, htag]

def c3uA : ElectrumUnspent :=
  { tx_hash := [4], tx_pos := 0, value := 100000, height := some 1 }

def c3uB : ElectrumUnspent :=
  { tx_hash := [5], tx_pos := 1, value := 200000, height := some 2 }

def c3ws : List (ElectrumUnspent × KeyPair) := [(c3uA, { id := 10 }), (c3uB, { id := 20 })]

def c3sign : UnsignedTx → Nat → KeyPair → Except String (Nat × Nat) :=
  fun _ i keypair => Except.ok (i, keypair.id)

def c3sigs : List (Nat × Nat) := [(0, 10), (1, 20)]

theorem sign_index_alignment_witness :
    collectExcept (signCalls c3sign [] c3ws) = Except.ok c3sigs ∧
    c3sigs.length = c3ws.length ∧
    c3sigs[1]?.map Except.ok =
      some (c3sign (assembleTx [] c3ws) 1 ((c3uB, ({ id := 20 } : KeyPair)).2)) :=
  ⟨rfl,
    (sign_index_alignment c3sign [] c3ws c3sigs rfl).2.1,
    ((sign_index_alignment c3sign [] c3ws c3sigs rfl).2.2 1 (c3uB, { id := 20 }) rfl).2⟩

theorem processCoin_skip {S : Type} (env : CoinCycleEnv S) (current_block : Nat)
    (hcl : env.client = UtxoRpcClientEnum.electrum)
    (hbc : env.blockCount = Except.ok current_block)
    (hlen : (filteredUnspents env current_block).length < 4) :
    processCoin env =
      CycleOutcome.skippedFewUnspents (filteredUnspents env current_block).length := by
  unfold processCoin
  rw [hcl, hbc]
  simp [hlen]

theorem runPass_cons_of_not_panicked {S : Type} (env : CoinCycleEnv S)
    (rest : List (CoinCycleEnv S)) (o : CycleOutcome S)
    (hp : processCoin env = o) (ho : o ≠ CycleOutcome.panicked) :
    runPass (env :: rest) = o :: runPass rest := by
  cases o with
  | panicked => exact absurd rfl ho
  | heightError e => rw [runPass, hp]
  | skippedFewUnspents n => rw [runPass, hp]
  | signFailed e tx ticker => rw [runPass, hp]
  | broadcastFailed e ticker => rw [runPass, hp]
  | sent ticker txid => rw [runPass, hp]

/-- C4: when the filtered set has fewer than 4 outputs, the coin's cycle
is skipped: the outcome records the count and nothing more, no broadcast
call is reached, the outcome is unchanged by whatever the signing and
broadcast capabilities would have returned (they are never consulted),
and the pass simply continues with the remaining coins. -/
theorem skip_few_unspents {S : Type} (env : CoinCycleEnv S) (rest : List (CoinCycleEnv S))
    (current_block : Nat)
    (hcl : env.client = UtxoRpcClientEnum.electrum)
    (hbc : env.blockCount = Except.ok current_block)
    (hlen : (filteredUnspents env current_block).length < 4) :
    processCoin env =
      CycleOutcome.skippedFewUnspents (filteredUnspents env current_block).length ∧
    broadcastAttempted (processCoin env) = false ∧
    (∀ (sign2 : UnsignedTx → Nat → KeyPair → Except String S)
        (broadcast2 : List S → Except String String),
        processCoin { env with sign := sign2, broadcast := broadcast2 } =
          CycleOutcome.skippedFewUnspents (filteredUnspents env current_block).length) ∧
    runPass (env :: rest) =
      CycleOutcome.skippedFewUnspents (filteredUnspents env current_block).length ::
        runPass rest := by
  have hp := processCoin_skip env current_block hcl hbc hlen
  refine ⟨hp, by rw [hp]; rfl, ?_, ?_⟩
  · intro sign2 broadcast2
    exact processCoin_skip { env with sign := sign2, broadcast := broadcast2 }
      current_block hcl hbc hlen
  · exact runPass_cons_of_not_panicked env rest _ hp (by intro h; exact CycleOutcome.noConfusion h)

def c4env : CoinCycleEnv Nat :=
  { client := UtxoRpcClientEnum.electrum
    ticker := "KMD"
    output_threshold := 50000
    keypairs := [{ id := 1 }]
    script_pubkey := [118]
    blockCount := Except.ok 500
    listUnspent := fun _ => Except.ok []
    sign := fun _ i _ => Except.ok i
    broadcast := fun _ => Except.ok "txid" }

theorem skip_few_unspents_witness :
    (filteredUnspents c4env 500).length < 4 ∧
    processCoin c4env =
      CycleOutcome.skippedFewUnspents (filteredUnspents c4env 500).length ∧
    broadcastAttempted (processCoin c4env) = false :=
  ⟨by decide, (skip_few_unspents c4env [] 500 rfl rfl (by decide)).1,
    (skip_few_unspents c4env [] 500 rfl rfl (by decide)).2.1⟩

theorem processCoin_signFailed {S : Type} (env : CoinCycleEnv S) (current_block : Nat)
    (e : String)
    (hcl : env.client = UtxoRpcClientEnum.electrum)
    (hbc : env.blockCount = Except.ok current_block)
    (hlen : ¬ (filteredUnspents env current_block).length < 4)
    (hsig : collectExcept (signCalls env.sign env.script_pubkey
        (filteredUnspents env current_block)) = Except.error e) :
    processCoin env = CycleOutcome.signFailed e
      (assembleTx env.script_pubkey (filteredUnspents env current_block)) env.ticker := by
  unfold processCoin
  rw [hcl, hbc]
  simp [hlen, hsig]

/-- C5: a signing failure on any input aborts the whole transaction for
that coin's cycle: the outcome carries the error, the whole unsigned
transaction, and the coin's ticker (the logged data), the broadcast call
is never reached and the outcome does not depend on the broadcast
capability, and the pass continues with the remaining coins unchanged. -/
theorem sign_failure_aborts {S : Type} (env : CoinCycleEnv S) (rest : List (CoinCycleEnv S))
    (current_block : Nat) (e : String)
    (hcl : env.client = UtxoRpcClientEnum.electrum)
    (hbc : env.blockCount = Except.ok current_block)
    (hlen : ¬ (filteredUnspents env current_block).length < 4)
    (hsig : collectExcept (signCalls env.sign env.script_pubkey
        (filteredUnspents env current_block)) = Except.error e) :
    processCoin env = CycleOutcome.signFailed e
      (assembleTx env.script_pubkey (filteredUnspents env current_block)) env.ticker ∧
    broadcastAttempted (processCoin env) = false ∧
    (∀ broadcast2 : List S → Except String String,
        processCoin { env with broadcast := broadcast2 } =
          CycleOutcome.signFailed e
            (assembleTx env.script_pubkey (filteredUnspents env current_block)) env.ticker) ∧
    runPass (env :: rest) =
      CycleOutcome.signFailed e
          (assembleTx env.script_pubkey (filteredUnspents env current_block)) env.ticker ::
        runPass rest := by
  have hp := processCoin_signFailed env current_block e hcl hbc hlen hsig
  refine ⟨hp, by rw [hp]; rfl, ?_, ?_⟩
  · intro broadcast2
    exact processCoin_signFailed { env with broadcast := broadcast2 } current_block e
      hcl hbc hlen hsig
  · exact runPass_cons_of_not_panicked env rest _ hp
      (by intro h; exact CycleOutcome.noConfusion h)

def c5unspent (n : Nat) : ElectrumUnspent :=
  { tx_hash := [n], tx_pos := n, value := 100000, height := some 1 }

def c5env : CoinCycleEnv Nat :=
  { client := UtxoRpcClientEnum.electrum
    ticker := "RICK"
    output_threshold := 50000
    keypairs := [{ id := 1 }]
    script_pubkey := [118]
    blockCount := Except.ok 500
    listUnspent := fun _ =>
      Except.ok [c5unspent 1, c5unspent 2, c5unspent 3, c5unspent 4, c5unspent 5]
    sign := fun _ i _ => if i = 1 then Except.error "sig fail" else Except.ok i
    broadcast := fun _ => Except.ok "txid" }

theorem sign_failure_aborts_witness :
    collectExcept (signCalls c5env.sign c5env.script_pubkey (filteredUnspents c5env 500)) =
      Except.error "sig fail" ∧
    processCoin c5env = CycleOutcome.signFailed "sig fail"
      (assembleTx c5env.script_pubkey (filteredUnspents c5env 500)) c5env.ticker ∧
    broadcastAttempted (processCoin c5env) = false :=
  ⟨rfl,
    (sign_failure_aborts c5env [] 500 "sig fail" rfl rfl (by decide) rfl).1,
    (sign_failure_aborts c5env [] 500 "sig fail" rfl rfl (by decide) rfl).2.1⟩

/-- C10: a configured coin whose RPC client is not an Electrum client
panics at the start of its cycle, aborting the whole pass: the cycle's
outcome is a panic and no later coin of the pass is processed. -/
theorem non_electrum_panics {S : Type} (env : CoinCycleEnv S) (rest : List (CoinCycleEnv S))
    (hcl : env.client = UtxoRpcClientEnum.native) :
    processCoin env = CycleOutcome.panicked ∧
    runPass (env :: rest) = [CycleOutcome.panicked] := by
  have hp : processCoin env = CycleOutcome.panicked := by
    unfold processCoin
    rw [hcl]
  exact ⟨hp, by rw [runPass, hp]⟩

def c10env : CoinCycleEnv Nat :=
  { client := UtxoRpcClientEnum.native
    ticker := "BTC"
    output_threshold := 0
    keypairs := []
    script_pubkey := []
    blockCount := Except.ok 1
    listUnspent := fun _ => Except.ok []
    sign := fun _ i _ => Except.ok i
    broadcast := fun _ => Except.ok "txid" }

theorem non_electrum_panics_witness :
    processCoin c10env = CycleOutcome.panicked ∧
    runPass [c10env] = [CycleOutcome.panicked] :=
  non_electrum_panics c10env [] rfl
